import Mathlib

/-!
Verification development for the measurement-error-mitigation core demonstrated in
the notebook community/ignis/measurement_error_mitigation.ipynb.

The notebook delegates the calibration-matrix construction and the correction
filter to the external library functions it calls (complete_meas_cal,
CompleteMeasFitter, MeasurementFilter); the bodies of those functions are not part
of this repository, so they are modelled here from the specification.  Counts are
embedded as natural numbers, probabilities as rationals, and basis-state indices
as elements of Fin n under the canonical label ordering, so statements that the
specification phrases as holding within floating tolerance become exact equalities
over the rationals.
-/

open Finset

/-- Error kinds raised by the calibration builder and the correction filter. -/
inductive MitigationError where
  | ZeroShotCalibration
  | ShapeMismatch
  deriving DecidableEq

/-- The two correction methods accepted by the filter. -/
inductive Method where
  | pseudo_inverse
  | least_squares
  deriving DecidableEq

/-- Total number of shots of a count distribution over the basis states. -/
def totalShots {n : ℕ} (counts : Fin n → ℕ) : ℕ := ∑ i, counts i

/-- Modelled from the spec: the Calibration Matrix Builder (CompleteMeasFitter in
the external library, whose body is absent from this repository).  Its input is
one calibration experiment per basis state: cal j i is the number of shots whose
outcome was basis state i when basis state j was prepared.  Column j of the
result is that experiment normalized into a probability vector; if any experiment
has zero total shots the builder fails fast with a DivideByZero-class error
instead of silently defaulting the column. -/
def calMatrix {n : ℕ} (cal : Fin n → Fin n → ℕ) :
    Except MitigationError (Matrix (Fin n) (Fin n) ℚ) :=
  if _h : ∀ j, 0 < totalShots (cal j) then
    Except.ok (Matrix.of fun i j => (cal j i : ℚ) / (totalShots (cal j) : ℚ))
  else
    Except.error MitigationError.ZeroShotCalibration

/-- A raw count distribution normalized into a probability vector. -/
def probVec {n : ℕ} (raw : Fin n → ℕ) : Fin n → ℚ :=
  fun i => (raw i : ℚ) / (totalShots raw : ℚ)

/-- Modelled from the spec: the pseudo_inverse correction method.  It computes the
matrix inverse of the calibration matrix (over ℚ the inverse is the determinant
inverse times the adjugate), multiplies it into the normalized raw probability
vector, and rescales by the total shot count.  Unphysical entries are returned to
the caller as-is. -/
def applyPinv {n : ℕ} (A : Matrix (Fin n) (Fin n) ℚ) (raw : Fin n → ℕ) : Fin n → ℚ :=
  fun i => (totalShots raw : ℚ) * ((A.det⁻¹ • A.adjugate).mulVec (probVec raw) i)

/-- The squared Euclidean norm of the correction residual of candidate vector p. -/
def clsResidual {n : ℕ} (A : Matrix (Fin n) (Fin n) ℚ) (m p : Fin n → ℚ) : ℚ :=
  ∑ i, (m i - A.mulVec p i) ^ 2

/-- Modelled from the spec: the constrained least-squares correction solves
minimize the norm of (m - A p) subject to p nonnegative elementwise, over the
probability vector p.  A vector p is a solution when it is feasible and its
residual is minimal among all feasible vectors. -/
def IsCLSSolution {n : ℕ} (A : Matrix (Fin n) (Fin n) ℚ) (m p : Fin n → ℚ) : Prop :=
  (∀ i, 0 ≤ p i) ∧ ∀ q : Fin n → ℚ, (∀ i, 0 ≤ q i) → clsResidual A m p ≤ clsResidual A m q

/-- Modelled from the spec: the corrected counts of the constrained least-squares
method are the solution probability vector rescaled by the total shot count. -/
def clsCorrected {n : ℕ} (raw : Fin n → ℕ) (p : Fin n → ℚ) : Fin n → ℚ :=
  fun i => (totalShots raw : ℚ) * p i

/-- Modelled from the spec: a measurement filter holds an immutable calibration
matrix together with the ordered list of state labels indexing its rows and
columns. -/
structure MeasurementFilter (n : ℕ) where
  cal_matrix : Matrix (Fin n) (Fin n) ℚ
  state_labels : List String

/-- Raw counts handed to the filter: a list of (state label, count) pairs. -/
def checkShape {n : ℕ} (F : MeasurementFilter n) (raw : List (String × ℕ)) : Prop :=
  raw.map Prod.fst = F.state_labels ∧ raw.length = n

instance {n : ℕ} (F : MeasurementFilter n) (raw : List (String × ℕ)) :
    Decidable (checkShape F raw) :=
  inferInstanceAs (Decidable (_ ∧ _))

/-- The count vector extracted from a raw list of the right length. -/
def rawVec {n : ℕ} (raw : List (String × ℕ)) (h : raw.length = n) : Fin n → ℕ :=
  fun i => (raw.get (Fin.cast h.symm i)).2

/-- Modelled from the spec: the result of MeasurementFilter.apply.  The label list
of the raw counts must coincide with the label ordering of the calibration matrix;
otherwise the call fails synchronously with a ShapeMismatch-class error before any
method dispatch.  On a matching shape, the pseudo_inverse method returns the
pseudo-inverse correction, and the least_squares method returns the rescaled
solution of the non-negativity-constrained least-squares problem.  Because the
least-squares branch is specified as an optimization problem, the whole operation
is embedded as a relation between the inputs and the returned value. -/
inductive ApplyResult {n : ℕ} (F : MeasurementFilter n) (raw : List (String × ℕ)) :
    Method → Except MitigationError (Fin n → ℚ) → Prop where
  | mismatch (m : Method) (h : ¬ checkShape F raw) :
      ApplyResult F raw m (Except.error MitigationError.ShapeMismatch)
  | pinv (hlab : raw.map Prod.fst = F.state_labels) (hl : raw.length = n) :
      ApplyResult F raw Method.pseudo_inverse
        (Except.ok (applyPinv F.cal_matrix (rawVec raw hl)))
  | cls (hlab : raw.map Prod.fst = F.state_labels) (hl : raw.length = n)
      (p : Fin n → ℚ)
      (hp : IsCLSSolution F.cal_matrix (probVec (rawVec raw hl)) p) :
      ApplyResult F raw Method.least_squares
        (Except.ok (clsCorrected (rawVec raw hl) p))

/-- Example calibration counts for the column-sum property: 3 shots on the
diagonal and 1 elsewhere, 4 shots per experiment. -/
def exCal1 : Fin 2 → Fin 2 → ℕ := fun j i => if i = j then 3 else 1

/-- The calibration matrix built from exCal1. -/
def exA1 : Matrix (Fin 2) (Fin 2) ℚ :=
  Matrix.of fun i j => (exCal1 j i : ℚ) / (totalShots (exCal1 j) : ℚ)

/-- Error-free example calibration counts: all 5 shots of experiment j land on j. -/
def exCal2 : Fin 2 → Fin 2 → ℕ := fun j i => if i = j then 5 else 0

/-- The calibration matrix built from exCal2. -/
def exA2 : Matrix (Fin 2) (Fin 2) ℚ :=
  Matrix.of fun i j => (exCal2 j i : ℚ) / (totalShots (exCal2 j) : ℚ)

/-- A noiseless one-qubit filter with identity calibration matrix. -/
def exF3 : MeasurementFilter 2 := ⟨1, ["0", "1"]⟩

/-- Raw counts matching the labels of exF3. -/
def ex3raw : List (String × ℕ) := [("0", 3), ("1", 1)]

/-- The count vector extracted from ex3raw. -/
def ex3vec : Fin 2 → ℕ := rawVec ex3raw rfl

/-- Per-qubit readout confusion counts of the noise model in the notebook, out of
100 shots: a prepared 0 reads 0 with probability 0.9, a prepared 1 reads 1 with
probability 0.75. -/
def rq : ℕ → ℕ → ℕ := fun b c =>
  if b = 0 then (if c = 0 then 90 else 10) else (if c = 0 then 25 else 75)

/-- Exact two-qubit calibration counts out of 10000 shots per preparation, under
the independent per-qubit readout errors of the notebook noise model; the two bits
of an index are (value / 2, value % 2), so index 3 is the state labelled 11. -/
def noisyCal : Fin 4 → Fin 4 → ℕ :=
  fun j i => rq (j.val / 2) (i.val / 2) * rq (j.val % 2) (i.val % 2)

/-- The calibration matrix built from noisyCal. -/
def noisyA : Matrix (Fin 4) (Fin 4) ℚ :=
  Matrix.of fun i j => (noisyCal j i : ℚ) / (totalShots (noisyCal j) : ℚ)

/-- Example calibration counts whose first experiment has zero shots. -/
def exCal6 : Fin 2 → Fin 2 → ℕ := fun j _ => if j = 0 then 0 else 1

/-- A one-qubit filter for the shape-mismatch example. -/
def exF7 : MeasurementFilter 2 := ⟨1, ["0", "1"]⟩

/-- Raw counts whose labels disagree with the label ordering of exF7. -/
def ex7raw : List (String × ℕ) := [("1", 4), ("0", 2)]

/-- Noisy one-qubit calibration counts out of 100 shots per preparation. -/
def ex8Cal : Fin 2 → Fin 2 → ℕ :=
  fun j i => if j = 0 then (if i = 0 then 90 else 10) else (if i = 0 then 25 else 75)

/-- The calibration matrix built from ex8Cal. -/
def ex8A : Matrix (Fin 2) (Fin 2) ℚ :=
  Matrix.of fun i j => (ex8Cal j i : ℚ) / (totalShots (ex8Cal j) : ℚ)

/-- A filter holding the noisy calibration matrix ex8A. -/
def ex8F : MeasurementFilter 2 := ⟨ex8A, ["0", "1"]⟩

/-- Raw counts measured entirely in state 1. -/
def ex8raw : List (String × ℕ) := [("0", 0), ("1", 100)]

/-- The count vector extracted from ex8raw. -/
def ex8vec : Fin 2 → ℕ := rawVec ex8raw rfl

/-- Raw counts for the approximate-conservation example. -/
def ex9vec : Fin 2 → ℕ := fun i => if i = 0 then 5 else 3

/-- Raw counts for the exact-conservation example. -/
def ex10vec : Fin 2 → ℕ := fun i => if i = 0 then 2 else 5

/-- The residual is a sum of squares, hence non-negative. -/
theorem clsResidual_nonneg {n : ℕ} (A : Matrix (Fin n) (Fin n) ℚ) (m p : Fin n → ℚ) :
    0 ≤ clsResidual A m p :=
  Finset.sum_nonneg fun _ _ => sq_nonneg _

/-- Every entry of a probability vector is non-negative. -/
theorem probVec_nonneg {n : ℕ} (raw : Fin n → ℕ) (i : Fin n) : 0 ≤ probVec raw i :=
  div_nonneg (Nat.cast_nonneg _) (Nat.cast_nonneg _)

/-- Against the identity calibration matrix, a non-negative vector is its own
constrained least-squares solution: its residual vanishes. -/
theorem isCLS_identity {n : ℕ} (m : Fin n → ℚ) (hm : ∀ i, 0 ≤ m i) :
    IsCLSSolution 1 m m := by
  refine ⟨hm, fun q hq => ?_⟩
  have h0 : clsResidual 1 m m = 0 := by
    simp [clsResidual, Matrix.one_mulVec]
  rw [h0]
  exact clsResidual_nonneg 1 m q

/-- Claim C1: for every valid set of calibration experiments (each with positive
total shots), every column of the calibration matrix produced by the Calibration
Matrix Builder sums to 1; over the rationals the floating tolerance of the spec
becomes exact equality. -/
theorem calMatrix_col_sum_one {n : ℕ} (cal : Fin n → Fin n → ℕ)
    (A : Matrix (Fin n) (Fin n) ℚ) (h : calMatrix cal = Except.ok A) (j : Fin n) :
    ∑ i, A i j = 1 := by
  unfold calMatrix at h
  split at h
  case isTrue hpos =>
    injection h with hA
    subst hA
    have hne : ((totalShots (cal j) : ℚ)) ≠ 0 := by
      exact_mod_cast (hpos j).ne'
    simp only [Matrix.of_apply]
    rw [← Finset.sum_div, div_eq_one_iff_eq hne]
    unfold totalShots
    push_cast
    rfl
  case isFalse => cases h

/-- Witness for calMatrix_col_sum_one at the concrete calibration exCal1. -/
theorem calMatrix_col_sum_one_witness : ∑ i, exA1 i 0 = 1 :=
  calMatrix_col_sum_one exCal1 exA1 rfl 0

/-- Claim C2: when every calibration experiment puts 100 percent of its counts on
its own prepared state, the built calibration matrix is exactly the identity. -/
theorem calMatrix_identity {n : ℕ} (cal : Fin n → Fin n → ℕ)
    (A : Matrix (Fin n) (Fin n) ℚ)
    (hoff : ∀ j i, i ≠ j → cal j i = 0)
    (h : calMatrix cal = Except.ok A) : A = 1 := by
  unfold calMatrix at h
  split at h
  case isTrue hpos =>
    injection h with hA
    subst hA
    have htot : ∀ j, totalShots (cal j) = cal j j := by
      intro j
      unfold totalShots
      rw [Finset.sum_eq_single j]
      · intro b _ hb
        exact hoff j b hb
      · intro hj
        exact absurd (Finset.mem_univ j) hj
    ext i j
    by_cases hij : i = j
    · subst hij
      have hne : (cal i i : ℚ) ≠ 0 := by
        have hp := hpos i
        rw [htot i] at hp
        exact_mod_cast hp.ne'
      simp [Matrix.of_apply, Matrix.one_apply, htot i, div_self hne]
    · simp [Matrix.of_apply, Matrix.one_apply, hoff j i hij, hij]
  case isFalse => cases h

/-- Witness for calMatrix_identity at the error-free calibration exCal2. -/
theorem calMatrix_identity_witness : exA2 = 1 :=
  calMatrix_identity exCal2 exA2 (by decide) rfl

/-- Claim C6: a calibration experiment with zero total shots makes the builder
fail with the DivideByZero-class error ZeroShotCalibration instead of producing a
matrix with a silently defaulted column. -/
theorem calMatrix_zero_shots {n : ℕ} (cal : Fin n → Fin n → ℕ) (j : Fin n)
    (h : totalShots (cal j) = 0) :
    calMatrix cal = Except.error MitigationError.ZeroShotCalibration := by
  unfold calMatrix
  rw [dif_neg]
  intro hall
  have := hall j
  omega

/-- Witness for calMatrix_zero_shots at the concrete calibration exCal6. -/
theorem calMatrix_zero_shots_witness :
    calMatrix exCal6 = Except.error MitigationError.ZeroShotCalibration :=
  calMatrix_zero_shots exCal6 0 rfl

/-- Claim C5: with a noiseless (identity) calibration matrix, the pseudo-inverse
correction returns the raw count distribution unchanged; over the rationals the
floating tolerance of the spec becomes exact equality. -/
theorem applyPinv_identity {n : ℕ} (raw : Fin n → ℕ) :
    applyPinv 1 raw = fun i => (raw i : ℚ) := by
  funext i
  unfold applyPinv
  rw [Matrix.det_one, Matrix.adjugate_one, inv_one, one_smul, Matrix.one_mulVec]
  unfold probVec
  rcases Nat.eq_zero_or_pos (totalShots raw) with h0 | hpos
  · have hz : raw i = 0 := by
      unfold totalShots at h0
      exact Finset.sum_eq_zero_iff.mp h0 i (Finset.mem_univ i)
    simp [h0, hz]
  · have hne : ((totalShots raw : ℚ)) ≠ 0 := by
      exact_mod_cast hpos.ne'
    rw [mul_comm, div_mul_cancel₀ _ hne]

/-- Claim C10: for an invertible calibration matrix whose columns each sum exactly
to 1, the pseudo-inverse correction conserves the total count exactly: the
all-ones row vector is a left eigenvector of the matrix, hence of its inverse. -/
theorem applyPinv_total_conservation {n : ℕ} (A : Matrix (Fin n) (Fin n) ℚ)
    (raw : Fin n → ℕ) (hdet : A.det ≠ 0) (hcol : ∀ j, ∑ i, A i j = 1) :
    ∑ i, applyPinv A raw i = ∑ i, (raw i : ℚ) := by
  have hU : IsUnit A.det := isUnit_iff_ne_zero.mpr hdet
  have hBinv : A.det⁻¹ • A.adjugate = A⁻¹ := by
    rw [Matrix.inv_def, Ring.inverse_eq_inv]
  have hcolInv : ∀ k, ∑ i, A⁻¹ i k = 1 := by
    have hu : Matrix.vecMul (fun _ => (1 : ℚ)) A = fun _ => (1 : ℚ) := by
      funext j
      simp [Matrix.vecMul, Matrix.dotProduct, hcol j]
    have h2 : Matrix.vecMul (fun _ => (1 : ℚ)) A⁻¹ = fun _ => (1 : ℚ) := by
      have h3 := Matrix.vecMul_vecMul (fun _ => (1 : ℚ)) A A⁻¹
      rw [hu, Matrix.mul_nonsing_inv A hU, Matrix.vecMul_one] at h3
      exact h3
    intro k
    have hk := congrFun h2 k
    simpa [Matrix.vecMul, Matrix.dotProduct] using hk
  have hcast : ∑ k, (raw k : ℚ) = (totalShots raw : ℚ) := by
    unfold totalShots
    push_cast
    rfl
  have hsum : ∑ i, A⁻¹.mulVec (probVec raw) i = ∑ k, probVec raw k := by
    simp only [Matrix.mulVec, Matrix.dotProduct]
    rw [Finset.sum_comm]
    exact Finset.sum_congr rfl fun k _ => by rw [← Finset.sum_mul, hcolInv k, one_mul]
  unfold applyPinv
  rw [hBinv, ← Finset.mul_sum, hsum]
  unfold probVec
  rw [← Finset.sum_div, hcast]
  rcases Nat.eq_zero_or_pos (totalShots raw) with h0 | hpos
  · rw [h0]
    norm_num
  · have hne : ((totalShots raw : ℚ)) ≠ 0 := by
      exact_mod_cast hpos.ne'
    rw [div_self hne, mul_one]

/-- Witness for applyPinv_total_conservation at the identity matrix and the
concrete raw counts ex10vec. -/
theorem applyPinv_total_conservation_witness :
    ∑ i, applyPinv 1 ex10vec i = ∑ i, (ex10vec i : ℚ) :=
  applyPinv_total_conservation 1 ex10vec (by simp [Matrix.det_one])
    (by intro j; simp [Matrix.one_apply])

/-- Claim C7: when the label list of the raw counts does not match the label
ordering of the calibration matrix, apply fails synchronously with the
ShapeMismatch-class error for every method: that error is a possible result, and
it is the only possible result. -/
theorem apply_shape_mismatch {n : ℕ} (F : MeasurementFilter n)
    (raw : List (String × ℕ)) (hm : raw.map Prod.fst ≠ F.state_labels)
    (m : Method) :
    ApplyResult F raw m (Except.error MitigationError.ShapeMismatch) ∧
      ∀ out, ApplyResult F raw m out →
        out = Except.error MitigationError.ShapeMismatch := by
  constructor
  · exact ApplyResult.mismatch m fun hc => hm hc.1
  · intro out hout
    cases hout with
    | mismatch _ _ => rfl
    | pinv hlab hl => exact absurd hlab hm
    | cls hlab hl p hp => exact absurd hlab hm

/-- Witness for apply_shape_mismatch at the concrete filter exF7 and the
mislabelled raw counts ex7raw. -/
theorem apply_shape_mismatch_witness :
    ApplyResult exF7 ex7raw Method.pseudo_inverse
        (Except.error MitigationError.ShapeMismatch) ∧
      ∀ out, ApplyResult exF7 ex7raw Method.pseudo_inverse out →
        out = Except.error MitigationError.ShapeMismatch :=
  apply_shape_mismatch exF7 ex7raw (by decide) Method.pseudo_inverse

/-- Claim C3: every entry of the corrected distribution returned by apply with the
constrained least-squares method is non-negative. -/
theorem cls_apply_nonneg {n : ℕ} (F : MeasurementFilter n)
    (raw : List (String × ℕ)) (v : Fin n → ℚ)
    (h : ApplyResult F raw Method.least_squares (Except.ok v)) (i : Fin n) :
    0 ≤ v i := by
  cases h with
  | cls hlab hl p hp =>
      unfold clsCorrected
      exact mul_nonneg (Nat.cast_nonneg _) (hp.1 i)

/-- Witness for cls_apply_nonneg at the noiseless filter exF3 and the concrete
raw counts ex3raw, whose probability vector is its own constrained solution. -/
theorem cls_apply_nonneg_witness :
    0 ≤ clsCorrected ex3vec (probVec ex3vec) 0 :=
  cls_apply_nonneg exF3 ex3raw (clsCorrected ex3vec (probVec ex3vec))
    (ApplyResult.cls rfl (rfl : ex3raw.length = 2) (probVec ex3vec)
      (isCLS_identity (probVec ex3vec) (probVec_nonneg ex3vec))) 0

/-- Counterexample to claim C4: in the noise model of the notebook each qubit has
P(1 given prepared 0) = 0.1 and P(0 given prepared 1) = 0.25, so a prepared 1
survives with probability 0.75 per qubit, and the (11,11) entry of the built 4x4
calibration matrix is 0.75 * 0.75 = 0.5625, not (1 - 0.1) * (1 - 0.1) = 0.81. -/
theorem noisy_entry_11_counterexample :
    calMatrix noisyCal = Except.ok noisyA ∧
      noisyA 3 3 ≠ (1 - 1/10) * (1 - 1/10) := by
  refine ⟨rfl, ?_⟩
  have h : noisyA 3 3 = 9/16 := by
    norm_num [noisyA, noisyCal, rq, totalShots, Fin.sum_univ_four,
      show ((0 : Fin 4) : ℕ) = 0 from rfl, show ((1 : Fin 4) : ℕ) = 1 from rfl,
      show ((2 : Fin 4) : ℕ) = 2 from rfl, show ((3 : Fin 4) : ℕ) = 3 from rfl]
  rw [h]
  norm_num

/-- Claim C4 amended: for the 2-qubit calibration with independent per-qubit
readout errors P(1 given prepared 0) = 0.1 and P(0 given prepared 1) = 0.25 built
from the four preparations, the (11,11) entry of the 4x4 calibration matrix
equals (1 - 0.25) * (1 - 0.25) = 0.5625 in product form; it is the (00,00) entry
that equals (1 - 0.1) * (1 - 0.1) = 0.81. -/
theorem noisy_entry_11_amended :
    calMatrix noisyCal = Except.ok noisyA ∧
      noisyA 3 3 = (1 - 1/4) * (1 - 1/4) ∧
      noisyA 0 0 = (1 - 1/10) * (1 - 1/10) := by
  refine ⟨rfl, ?_, ?_⟩ <;>
    norm_num [noisyA, noisyCal, rq, totalShots, Fin.sum_univ_four,
      show ((0 : Fin 4) : ℕ) = 0 from rfl, show ((1 : Fin 4) : ℕ) = 1 from rfl,
      show ((2 : Fin 4) : ℕ) = 2 from rfl, show ((3 : Fin 4) : ℕ) = 3 from rfl]

/-- Claim C8: the pseudo-inverse correction can return corrected entries that are
negative or exceed the total count, and such unphysical results are returned to
the caller as an ok value, never raised as an error: at the valid calibration
matrix built from ex8Cal and raw counts concentrated on state 1, apply returns ok
with a negative entry at index 0 and an entry exceeding the total shot count at
index 1. -/
theorem pinv_unphysical_returned :
    calMatrix ex8Cal = Except.ok ex8A ∧
      ApplyResult ex8F ex8raw Method.pseudo_inverse
        (Except.ok (applyPinv ex8A ex8vec)) ∧
      applyPinv ex8A ex8vec 0 < 0 ∧
      (totalShots ex8vec : ℚ) < applyPinv ex8A ex8vec 1 := by
  refine ⟨rfl, ApplyResult.pinv rfl (rfl : ex8raw.length = 2), ?_, ?_⟩ <;>
    norm_num [applyPinv, probVec, totalShots, rawVec, ex8raw, ex8vec, ex8A, ex8Cal,
      Matrix.det_fin_two, Matrix.adjugate_fin_two, Matrix.smul_apply,
      Matrix.mulVec, Matrix.dotProduct, Fin.sum_univ_two, Matrix.cons_val_zero,
      Matrix.cons_val_one, Matrix.head_cons]

/-- Claim C9: approximate conservation of the total count under the constrained
least-squares correction, stated quantitatively: since every column of the
calibration matrix sums to 1 and the solution residual is minimal, the squared
deviation between the corrected total and the raw total is bounded by n times
the squared total times the squared residual of the raw probability vector
itself, a quantity that is small exactly when the calibration matrix is close to
well-conditioned identity-like behaviour.  The corrected total is therefore
within a small relative tolerance of the raw total; no exact conservation is
imposed. -/
theorem cls_total_approx_conservation {n : ℕ} (A : Matrix (Fin n) (Fin n) ℚ)
    (raw : Fin n → ℕ) (p : Fin n → ℚ)
    (hcol : ∀ j, ∑ i, A i j = 1)
    (hp : IsCLSSolution A (probVec raw) p)
    (hpos : 0 < totalShots raw) :
    (∑ i, clsCorrected raw p i - ∑ i, (raw i : ℚ)) ^ 2
      ≤ (n : ℚ) * (totalShots raw : ℚ) ^ 2
          * clsResidual A (probVec raw) (probVec raw) := by
  have hcast : ∑ i, (raw i : ℚ) = (totalShots raw : ℚ) := by
    unfold totalShots
    push_cast
    rfl
  have hTne : ((totalShots raw : ℚ)) ≠ 0 := by
    exact_mod_cast hpos.ne'
  have hm : ∑ i, probVec raw i = 1 := by
    unfold probVec
    rw [← Finset.sum_div, hcast, div_self hTne]
  have hAp : ∑ i, A.mulVec p i = ∑ j, p j := by
    simp only [Matrix.mulVec, Matrix.dotProduct]
    rw [Finset.sum_comm]
    exact Finset.sum_congr rfl fun j _ => by rw [← Finset.sum_mul, hcol j, one_mul]
  have key : ∑ i, clsCorrected raw p i - ∑ i, (raw i : ℚ)
      = -((totalShots raw : ℚ) * ∑ i, (probVec raw i - A.mulVec p i)) := by
    unfold clsCorrected
    rw [← Finset.mul_sum, hcast, Finset.sum_sub_distrib, hm, hAp]
    ring
  have hCS : (∑ i, (probVec raw i - A.mulVec p i)) ^ 2
      ≤ (n : ℚ) * ∑ i, (probVec raw i - A.mulVec p i) ^ 2 := by
    have h := sq_sum_le_card_mul_sum_sq (s := Finset.univ)
      (f := fun i => probVec raw i - A.mulVec p i)
    simpa using h
  rw [key, neg_sq, mul_pow]
  calc ((totalShots raw : ℚ)) ^ 2 * (∑ i, (probVec raw i - A.mulVec p i)) ^ 2
      ≤ ((totalShots raw : ℚ)) ^ 2 * ((n : ℚ) * ∑ i, (probVec raw i - A.mulVec p i) ^ 2) :=
        mul_le_mul_of_nonneg_left hCS (sq_nonneg _)
    _ = (n : ℚ) * ((totalShots raw : ℚ)) ^ 2 * clsResidual A (probVec raw) p := by
        unfold clsResidual
        ring
    _ ≤ (n : ℚ) * ((totalShots raw : ℚ)) ^ 2 * clsResidual A (probVec raw) (probVec raw) :=
        mul_le_mul_of_nonneg_left (hp.2 (probVec raw) (probVec_nonneg raw)) (by positivity)

/-- Witness for cls_total_approx_conservation at the identity matrix and the
concrete raw counts ex9vec, whose probability vector is its own solution. -/
theorem cls_total_approx_conservation_witness :
    (∑ i, clsCorrected ex9vec (probVec ex9vec) i - ∑ i, (ex9vec i : ℚ)) ^ 2
      ≤ ((2 : ℕ) : ℚ) * (totalShots ex9vec : ℚ) ^ 2
          * clsResidual 1 (probVec ex9vec) (probVec ex9vec) :=
  cls_total_approx_conservation 1 ex9vec (probVec ex9vec)
    (by intro j; simp [Matrix.one_apply])
    (isCLS_identity (probVec ex9vec) (probVec_nonneg ex9vec))
    (by decide)
